import Mathlib

/-!
Verification of the frame cache, period/eviction engine and payload decode
layer of `canqv.c` (a CAN bus spy).  The C program is shallowly embedded:
the cache array becomes a `List`, doubles become rationals (`NaN` becomes
`Option.none`), 32-bit unsigned arithmetic is made explicit with `% 2 ^ 32`,
and the `qsort`/`bsearch` libc calls are modelled by executable Lean
functions documented at their definitions.
-/

namespace Canqv

/-- `struct can_frame`: 32-bit identifier (including the EFF/RTR flag bits),
data length code, and the 8-byte payload array (`data : List Nat`, by
convention of length 8, each entry a byte). -/
structure CanFrame where
  can_id : Nat
  can_dlc : Nat
  data : List Nat
deriving DecidableEq, Repr, Inhabited

/-- `struct cache` of canqv.c: the stored frame, the flag word (bit 0 is
`F_DIRTY`), the time of the last reception, and the estimated period.
`period = none` models the C `NAN` ("unknown"). -/
structure Cache where
  cf : CanFrame
  flags : Nat
  lastrx : ℚ
  period : Option ℚ
deriving DecidableEq, Repr, Inhabited

/-- `F_DIRTY` flag bit of canqv.c. -/
def F_DIRTY : Nat := 1

/-- `CAN_EFF_MASK` from linux/can.h, used by `appendLog` and the renderer. -/
def CAN_EFF_MASK : Nat := 0x1FFFFFFF

/-- Conversion of a `uint32_t` value to a (two's complement) signed `int`,
as gcc implements the implementation-defined narrowing in `cmpcache`. -/
def toSigned32 (n : Nat) : Int :=
  if n < 2 ^ 31 then (n : Int) else (n : Int) - 2 ^ 32

/-- The identifier comparison inside `cmpcache` of canqv.c:
`a->cf.can_id - b->cf.can_id` computed on `canid_t` (`uint32_t`), the
32-bit difference then converted to the `int` return value. -/
def cmpId (a b : Nat) : Int :=
  toSigned32 ((a % 2 ^ 32 + (2 ^ 32 - b % 2 ^ 32)) % 2 ^ 32)

/-- `cmpcache` of canqv.c: compares two cache entries by identifier. -/
def cmpcache (a b : Cache) : Int :=
  cmpId a.cf.can_id b.cf.can_id

/-- `isCommand` of canqv.c: both the `0xC0 <= id < 0xD0` branch and the
fall-through return 1. -/
def isCommand (id : Nat) : Nat :=
  if 0xC0 ≤ id ∧ id < 0xD0 then 1 else 1

/-- `unitName` of canqv.c: fixed lookup table from a module byte to its
three-letter mnemonic, empty string when unknown. -/
def unitName (id : Nat) : String :=
  if id = 0x1b then "MUM"
  else if id = 0x40 then "CEM"
  else if id = 0x51 then "DIM"
  else if id = 0x48 then "SWM"
  else if id = 0x29 then "CCM"
  else if id = 0x43 then "DDM"
  else if id = 0x45 then "PDM"
  else if id = 0x2e then "PSM"
  else if id = 0x46 then "REM"
  else if id = 0x58 then "SRS"
  else if id = 0x47 then "UEM"
  else if id = 0x60 then "AUM"
  else if id = 0x64 then "PHM"
  else if id = 0x50 then "CEH"
  else if id = 0x01 then "BCH"
  else if id = 0x52 then "AEM"
  else if id = 0x11 then "ECH"
  else if id = 0x28 then "SAH"
  else if id = 0x6e then "TCH"
  else if id = 0x62 then "RTI"
  else ""

/-- One field of the record `appendLog` writes: either a byte printed with
`%02x`, or a module name printed with `%03s`. -/
inductive LogField where
  | hex (b : Nat)
  | name (s : String)
deriving DecidableEq, Repr

/-- The record `appendLog` writes: the `%08x` identifier field and the
sequence of byte/name fields that follow it on the line. -/
structure LogRecord where
  ident : Nat
  fields : List LogField
deriving DecidableEq, Repr

/-- The record produced by the `fprintf` in `appendLog` of canqv.c:
identifier masked with `CAN_EFF_MASK`, then `row[0]`, then
`unitName(row[1])` (in place of the hex of byte 1), then `row[2]` up to
`row[7]`, and finally `row[8]` — an out-of-bounds read one past the 8-byte
`data` array, whose value is not determined by the frame and is therefore
an explicit parameter `oob` of the model. -/
def appendRecord (cf : CanFrame) (oob : Nat) : LogRecord :=
  { ident := cf.can_id &&& CAN_EFF_MASK
    fields := [LogField.hex (cf.data.getD 0 0),
               LogField.name (unitName (cf.data.getD 1 0)),
               LogField.hex (cf.data.getD 2 0),
               LogField.hex (cf.data.getD 3 0),
               LogField.hex (cf.data.getD 4 0),
               LogField.hex (cf.data.getD 5 0),
               LogField.hex (cf.data.getD 6 0),
               LogField.hex (cf.data.getD 7 0),
               LogField.hex oob] }

/-- Outcome of one `appendLog` call. -/
inductive AppendOutcome where
  | crashed
  | wrote (rec : LogRecord)
deriving DecidableEq, Repr

/-- `appendLog` of canqv.c.  The function calls `fopen` and passes the
result, unchecked, to `fprintf`: when the open succeeds the record is
written and the handle closed at once; when `fopen` returns `NULL` the
`fprintf` dereferences the null stream, which aborts the process —
modelled as `crashed`.  `openOk` is the outcome of the `fopen` call. -/
def appendLog (openOk : Bool) (cf : CanFrame) (oob : Nat) : AppendOutcome :=
  if openOk then AppendOutcome.wrote (appendRecord cf oob) else AppendOutcome.crashed

/-- The `command_flag` computed in the render loop of canqv.c: set during
the `byte == 0` iteration (which runs only when `can_dlc >= 1`) when
`isCommand(data[0]) == 1`. -/
def commandFlag (cf : CanFrame) : Bool :=
  decide (1 ≤ cf.can_dlc) && decide (isCommand (cf.data.getD 0 0) = 1)

/-- Whether the render loop of canqv.c calls `appendLog` for an entry: the
`byte == 1` iteration runs (`can_dlc >= 2`), `strlen` of the copied
`unitName(data[1])` exceeds 2, and `command_flag == 1`. -/
def logsEntry (cf : CanFrame) : Bool :=
  decide (2 ≤ cf.can_dlc) && decide (2 < (unitName (cf.data.getD 1 0)).length)
    && commandFlag cf

/-- The glibc `bsearch` loop called in canqv.c's main loop, specialised to
the cache array and the `cmpcache` comparator (which only reads the
identifier): on `[lo, hi)`, probe `mid = (lo + hi) / 2` and recurse left,
recurse right, or return the index, by the sign of the comparison.  `fuel`
bounds the iteration count; `bsearchIdx` supplies enough fuel that it is
never exhausted. -/
def bsearchGo (key : Nat) (l : List Cache) : Nat → Nat → Nat → Option Nat
  | 0, _, _ => none
  | fuel + 1, lo, hi =>
    if lo < hi then
      let mid := (lo + hi) / 2
      let c := cmpId key (l.getD mid default).cf.can_id
      if c < 0 then bsearchGo key l fuel lo mid
      else if 0 < c then bsearchGo key l fuel (mid + 1) hi
      else some mid
    else none

/-- The `bsearch(&w, cache, ncache, ...)` call of canqv.c: search the whole
cache for the received identifier. -/
def bsearchIdx (key : Nat) (l : List Cache) : Option Nat :=
  bsearchGo key l (l.length + 1) 0 l.length

/-- The boolean "less or equal" order induced by `cmpcache`, used by the
sort model. -/
def cacheLE (a b : Cache) : Bool :=
  decide (cmpcache a b ≤ 0)

/-- Sorted insertion w.r.t. `cacheLE`, the building block of the `qsort`
model. -/
def insertSorted (x : Cache) : List Cache → List Cache
  | [] => [x]
  | y :: l => if cacheLE x y then x :: y :: l else y :: insertSorted x l

/-- Model of the `qsort(cache, ncache, sizeof(*cache), cmpcache)` call of
canqv.c, as an insertion sort over the comparator.  `qsort(3)` promises an
array sorted w.r.t. the comparator; whenever `cmpcache` is a consistent
ordering (in particular whenever all identifiers are below `2 ^ 31`, see
`cmpId_small`) every comparison sort produces this same result.  When the
identifier mix makes `cmpcache` inconsistent (its `int` difference
overflows), the C behaviour is comparator-dependent and this model fixes
one concrete comparison sort. -/
def qsortCache : List Cache → List Cache
  | [] => []
  | x :: l => insertSorted x (qsortCache l)

/-- One integration of a received frame into the cache, lines 234-260 of
canqv.c: look the identifier up with `bsearch`; when absent, append a new
entry (`F_DIRTY` set, `period = NAN`, `lastrx = now`) and re-sort with
`qsort`; when found, set the dirty bit if identifier, dlc or the first
`can_dlc` payload bytes changed, overwrite the stored frame, set
`period = now - lastrx` (`NAN` when above `maxperiod`) and `lastrx = now`. -/
def integrate (maxperiod : ℚ) (cache : List Cache) (cf : CanFrame) (now : ℚ) : List Cache :=
  match bsearchIdx cf.can_id cache with
  | none =>
      qsortCache (cache ++ [{ cf := cf, flags := F_DIRTY, lastrx := now, period := none }])
  | some i =>
      let curr := cache.getD i default
      let dirty : Bool := decide (curr.cf.can_id ≠ cf.can_id)
        || decide (curr.cf.can_dlc ≠ cf.can_dlc)
        || decide (curr.cf.data.take cf.can_dlc ≠ cf.data.take cf.can_dlc)
      let p := now - curr.lastrx
      cache.set i
        { cf := cf
          flags := if dirty then curr.flags ||| F_DIRTY else curr.flags
          lastrx := now
          period := if maxperiod < p then none else some p }

/-- The period staleness reset applied to a surviving entry during the
sweep, lines 277-279 of canqv.c: a known period is reset to `NAN` when the
entry has been silent for more than twice its period. -/
def updExpired (now : ℚ) (e : Cache) : Cache :=
  match e.period with
  | some p => if 2 * p < now - e.lastrx then { e with period := none } else e
  | none => e

/-- The "remove dead cache" loop of canqv.c, lines 265-280: a single
in-place pass over the array.  A stale entry (`now - lastrx > deadtime`) is
removed by shifting the tail down (`memcpy` / `--ncache` / `--row`); a kept
entry gets the period staleness reset.  `fuel` bounds the iteration count;
`sweep` supplies enough fuel that it is never exhausted. -/
def sweepGo (now deadtime : ℚ) : Nat → Nat → List Cache → List Cache
  | 0, _, l => l
  | fuel + 1, row, l =>
    if row < l.length then
      let e := l.getD row default
      if deadtime < now - e.lastrx then sweepGo now deadtime fuel row (l.eraseIdx row)
      else sweepGo now deadtime fuel (row + 1) (l.set row (updExpired now e))
    else l

/-- The whole sweep pass of canqv.c, starting at row 0. -/
def sweep (now deadtime : ℚ) (l : List Cache) : List Cache :=
  sweepGo now deadtime l.length 0 l

/-- The per-row flag update at the end of the render loop of canqv.c, line
327: `cache[row].flags &= F_DIRTY` (which masks the flag word with the
dirty bit — it does not clear the bit). -/
def renderFlags (e : Cache) : Cache :=
  { e with flags := e.flags &&& F_DIRTY }

/-- The numeric configuration of canqv.c (`-m` and `-x` options). -/
structure Config where
  maxperiod : ℚ
  deadtime : ℚ
deriving DecidableEq, Repr

/-- The mutable state carried across iterations of the main loop:
the cache array and `last_update`. -/
structure LoopState where
  cache : List Cache
  last_update : ℚ
deriving DecidableEq, Repr

/-- One iteration of the main `while (1)` loop of canqv.c for a received
frame, lines 226-328: integrate the frame at time `now` (`jiffies`); if
less than 0.25 s elapsed since `last_update`, `continue`; otherwise sweep
the cache, set `last_update = now`, and render the swept cache (the
returned snapshot), masking each row's flags with `F_DIRTY` afterwards. -/
def stepFrame (cfg : Config) (s : LoopState) (now : ℚ) (cf : CanFrame) :
    LoopState × Option (List Cache) :=
  if now - s.last_update < 1 / 4 then
    ({ cache := integrate cfg.maxperiod s.cache cf now, last_update := s.last_update }, none)
  else
    ({ cache := (sweep now cfg.deadtime (integrate cfg.maxperiod s.cache cf now)).map renderFlags
       last_update := now },
     some (sweep now cfg.deadtime (integrate cfg.maxperiod s.cache cf now)))

/-- The main loop of canqv.c run over a finite trace of timestamped frames
(the blocking `recv` supplies one frame per iteration; the timestamp is the
`update_jiffies()` value of that iteration).  Returns the final state and
the snapshots handed to the renderer, in order. -/
def runLoop (cfg : Config) : LoopState → List (ℚ × CanFrame) → LoopState × List (List Cache)
  | s, [] => (s, [])
  | s, (t, cf) :: rest =>
    ((runLoop cfg (stepFrame cfg s t cf).1 rest).1,
      match (stepFrame cfg s t cf).2 with
      | none => (runLoop cfg (stepFrame cfg s t cf).1 rest).2
      | some snap => snap :: (runLoop cfg (stepFrame cfg s t cf).1 rest).2)

/-- A pure sequence of `integrate` calls (no sweep, no render), as in the
uniqueness property of the spec, starting from the empty cache. -/
def integrateAll (maxperiod : ℚ) (frames : List (ℚ × CanFrame)) : List Cache :=
  frames.foldl (fun c p => integrate maxperiod c p.2 p.1) []

/-- The cache well-formedness invariant used by the amended claims:
identifiers strictly ascending, and every identifier below `2 ^ 31`
(no EFF flag bit), the range on which `cmpcache` is an exact comparison. -/
def wfCache (l : List Cache) : Prop :=
  l.Pairwise (fun a b => a.cf.can_id < b.cf.can_id) ∧ ∀ e ∈ l, e.cf.can_id < 2 ^ 31

instance : DecidablePred wfCache := fun l => by
  unfold wfCache
  infer_instance

/-! Concrete frames and traces used to evaluate the definitions. -/

/-- A standard-addressing frame, identifier 0x100. -/
def frameStd100 : CanFrame := { can_id := 0x100, can_dlc := 8, data := [1, 2, 3, 4, 5, 6, 7, 8] }

/-- A standard-addressing frame, identifier 0x200. -/
def frameStd200 : CanFrame := { can_id := 0x200, can_dlc := 8, data := [1, 2, 3, 4, 5, 6, 7, 8] }

/-- An RTR frame with base identifier 0: `can_id = CAN_RTR_FLAG`. -/
def frameRtr : CanFrame := { can_id := 0x40000000, can_dlc := 8, data := [1, 2, 3, 4, 5, 6, 7, 8] }

/-- An extended-addressing frame with base identifier 0x100:
`can_id = CAN_EFF_FLAG | 0x100`. -/
def frameExt : CanFrame := { can_id := 0x80000100, can_dlc := 8, data := [1, 2, 3, 4, 5, 6, 7, 8] }

/-- An extended RTR frame with base identifier 0:
`can_id = CAN_EFF_FLAG | CAN_RTR_FLAG`. -/
def frameExtRtr : CanFrame := { can_id := 0xC0000000, can_dlc := 8, data := [1, 2, 3, 4, 5, 6, 7, 8] }

/-- A frame whose second payload byte (0x33) has no module name. -/
def frameNoModule : CanFrame := { can_id := 0x123, can_dlc := 8, data := [0xCB, 0x33, 0, 0, 0, 0, 0, 0] }

/-- A trace mixing RTR, extended and standard identifiers whose pairwise
32-bit differences overflow `int`, then repeating the standard identifier. -/
def framesDup : List (ℚ × CanFrame) :=
  [(1, frameRtr), (2, frameExt), (3, frameStd100), (4, frameStd100)]

/-- A trace with one standard and one extended-RTR frame. -/
def framesMix : List (ℚ × CanFrame) := [(1, frameStd100), (2, frameExtRtr)]

/-- A trace of standard-identifier frames with a repeat. -/
def framesSmall : List (ℚ × CanFrame) :=
  [(1, frameStd100), (2, frameStd200), (3, frameStd100)]

/-- A one-frame trace. -/
def framesOne : List (ℚ × CanFrame) := [(1, frameStd100)]

/-- A cache holding one entry for identifier 0x100, last seen at t = 1. -/
def cacheOne : List Cache := [{ cf := frameStd100, flags := 1, lastrx := 1, period := none }]

/-- An update frame for identifier 0x100 with a changed payload. -/
def frameUpd : CanFrame := { can_id := 0x100, can_dlc := 2, data := [0xAA, 0xBB, 0, 0, 0, 0, 0, 0] }

/-- The snapshot produced by running `framesOne` from the initial state. -/
def snapOne : List Cache := [{ cf := frameStd100, flags := F_DIRTY, lastrx := 1, period := none }]

/-! Theorems. -/

/-- C7: the command predicate `isCommand` returns 1 for every input byte
value — the decode-gating predicate is effectively always true. -/
theorem isCommand_always_one (id : Nat) : isCommand id = 1 := by
  unfold isCommand
  split <;> rfl

/-- C8 (code bug): when `fopen` fails, `appendLog` does not surface the
failure and continue — the unchecked `NULL` stream is passed to `fprintf`
and the process aborts, modelled by the `crashed` outcome. -/
theorem appendLog_crashes_on_open_failure :
    appendLog false frameStd100 0 = AppendOutcome.crashed := rfl

/-- C9 counterexample: the claim says the second payload byte itself still
appears in the record alongside its annotation, and that the record holds
bytes 0 through 7 only.  For a frame whose second byte is 0x33 (and whose
other fields never take the value 0x33), the record written by `appendLog`
contains no hex field 0x33 at all: `unitName(row[1])` is printed in place
of the byte. -/
theorem appendRecord_omits_second_byte :
    LogField.hex 0x33 ∉ (appendRecord frameNoModule 0).fields := by decide

/-- C9 amended: the record consists of the `CAN_EFF_MASK`-masked
identifier, byte 0, the decoded module name of byte 1 (empty when unknown)
in place of byte 1's hex value, bytes 2 through 7, and one ninth value read
out of bounds past the payload array (the `oob` parameter). -/
theorem appendRecord_shape (cf : CanFrame) (oob : Nat) :
    appendRecord cf oob =
      { ident := cf.can_id &&& CAN_EFF_MASK
        fields := [LogField.hex (cf.data.getD 0 0), LogField.name (unitName (cf.data.getD 1 0))]
          ++ (List.range 6).map (fun i => LogField.hex (cf.data.getD (i + 2) 0))
          ++ [LogField.hex oob] } := rfl

/-- C6 counterexample: for a frame whose first byte is classified as a
command (the predicate is always true) but whose second byte has no module
name, the render loop does not append a log entry, refuting "appended if
and only if the first payload byte is classified as a command". -/
theorem log_gating_not_command_only :
    ¬ (logsEntry frameNoModule = true ↔
        isCommand (frameNoModule.data.getD 0 0) = 1) := by decide

/-- C6 amended: during a render cycle a log entry is appended for an entry
iff the payload has at least two bytes, the first byte is classified as a
command, and the second byte decodes to a known module name. -/
theorem log_gating_iff (cf : CanFrame) :
    logsEntry cf = true ↔
      2 ≤ cf.can_dlc ∧ isCommand (cf.data.getD 0 0) = 1
        ∧ 2 < (unitName (cf.data.getD 1 0)).length := by
  simp only [logsEntry, commandFlag, Bool.and_eq_true, decide_eq_true_eq]
  constructor
  · rintro ⟨⟨h2, hlen⟩, h1, hcmd⟩
    exact ⟨h2, hcmd, hlen⟩
  · rintro ⟨h2, hcmd, hlen⟩
    exact ⟨⟨h2, hlen⟩, by omega, hcmd⟩

/-- C5 (code bug): a frame is integrated into the empty cache (the new
entry is dirty) and a render cycle fires that includes the entry in its
snapshot; afterwards the entry's dirty bit is still set, because the
render loop computes `flags &= F_DIRTY`, which keeps the dirty bit rather
than clearing it. -/
theorem dirty_kept_after_render :
    (stepFrame ⟨2, 10⟩ ⟨[], 0⟩ 1 frameStd100).2 = some snapOne ∧
      ((stepFrame ⟨2, 10⟩ ⟨[], 0⟩ 1 frameStd100).1.cache.map
        (fun e => e.flags &&& F_DIRTY)) = [1] := by with_unfolding_all decide

/-- The element at the seam of `pre ++ x :: suf`. -/
theorem getD_append_cons (pre suf : List Cache) (x d : Cache) :
    (pre ++ x :: suf).getD pre.length d = x := by
  induction pre with
  | nil => rfl
  | cons y pre ih =>
    rw [List.cons_append, List.length_cons, List.getD_cons_succ]
    exact ih

/-- Erasing at the seam of `pre ++ x :: suf` removes `x`. -/
theorem eraseIdx_append_cons (pre suf : List Cache) (x : Cache) :
    (pre ++ x :: suf).eraseIdx pre.length = pre ++ suf := by
  induction pre with
  | nil => rfl
  | cons y pre ih =>
    rw [List.cons_append, List.length_cons, List.eraseIdx_cons_succ, ih, List.cons_append]

/-- Setting at the seam of `pre ++ x :: suf` replaces `x`. -/
theorem set_append_cons (pre suf : List Cache) (x v : Cache) :
    (pre ++ x :: suf).set pre.length v = pre ++ v :: suf := by
  induction pre with
  | nil => rfl
  | cons y pre ih =>
    rw [List.cons_append, List.length_cons, List.set_cons_succ, ih, List.cons_append]

/-- The sweep loop started at the seam of `pre ++ suf` leaves `pre` alone
and turns `suf` into its filtered, period-reset image. -/
theorem sweepGo_append (now dt : ℚ) (suf : List Cache) :
    ∀ (pre : List Cache) (fuel : Nat), suf.length ≤ fuel →
      sweepGo now dt fuel pre.length (pre ++ suf) =
        pre ++ (suf.filter (fun e => decide (now - e.lastrx ≤ dt))).map (updExpired now) := by
  induction suf with
  | nil =>
    intro pre fuel _
    cases fuel with
    | zero => simp [sweepGo]
    | succ f => simp [sweepGo]
  | cons e suf ih =>
    intro pre fuel h
    cases fuel with
    | zero => simp at h
    | succ f =>
      have hlt : pre.length < (pre ++ e :: suf).length := by
        simp [List.length_append]
      simp only [sweepGo]
      rw [if_pos hlt, getD_append_cons]
      by_cases hstale : dt < now - e.lastrx
      · rw [if_pos hstale, eraseIdx_append_cons]
        rw [ih pre f (by simpa using h)]
        rw [List.filter_cons, decide_eq_false (not_le.mpr hstale)]
        simp
      · rw [if_neg hstale, set_append_cons]
        have hsplit : pre ++ updExpired now e :: suf = (pre ++ [updExpired now e]) ++ suf := by
          simp
        have hlen : pre.length + 1 = (pre ++ [updExpired now e]).length := by simp
        rw [hsplit, hlen, ih (pre ++ [updExpired now e]) f (by simpa using h)]
        rw [List.filter_cons, decide_eq_true (not_lt.mp hstale)]
        simp

/-- The sweep equals the filter of the fresh entries followed by the
period staleness reset, stated over the whole loop. -/
theorem sweep_eq_filter_map (now dt : ℚ) (l : List Cache) :
    sweep now dt l =
      (l.filter (fun e => decide (now - e.lastrx ≤ dt))).map
        (fun e => { e with
          period := e.period.filter (fun p => decide (now - e.lastrx ≤ 2 * p)) }) := by
  have h0 := sweepGo_append now dt l [] l.length (le_refl _)
  simp only [List.nil_append, List.length_nil] at h0
  rw [sweep, h0]
  refine List.map_congr_left ?_
  intro e _
  rcases e with ⟨cf, fl, lr, per⟩
  cases per with
  | none => simp [updExpired, Option.filter]
  | some p =>
    by_cases hp : 2 * p < now - lr
    · have hd : decide (now - lr ≤ 2 * p) = false := decide_eq_false (by linarith)
      simp only [updExpired, if_pos hp, Option.filter, hd]
      simp
    · have hd : decide (now - lr ≤ 2 * p) = true := decide_eq_true (by linarith)
      simp only [updExpired, if_neg hp, Option.filter, hd]
      simp

/-- C2: the sweep is one pass that removes exactly the entries with
`now - lastrx > deadtime`, keeps the rest in their relative order, and
resets a surviving entry's period to unknown exactly when the period is
known and `now - lastrx` exceeds twice the period. -/
theorem sweep_removes_stale_keeps_rest (now dt : ℚ) (l : List Cache) :
    sweep now dt l =
      (l.filter (fun e => decide (now - e.lastrx ≤ dt))).map
        (fun e => { e with
          period := e.period.filter (fun p => decide (now - e.lastrx ≤ 2 * p)) }) :=
  sweep_eq_filter_map now dt l

/-- `getD` at an in-range index is the indexed element. -/
theorem getD_eq_getElem_of_lt (l : List Cache) (n : Nat) (d : Cache) (h : n < l.length) :
    l.getD n d = l[n] := by
  rw [List.getD_eq_getElem?_getD, List.getElem?_eq_getElem h]
  rfl

/-- For identifiers below `2 ^ 31` the C comparator computes the exact
integer difference: no overflow occurs. -/
theorem cmpId_small (a b : Nat) (ha : a < 2 ^ 31) (hb : b < 2 ^ 31) :
    cmpId a b = (a : ℤ) - (b : ℤ) := by
  unfold cmpId toSigned32
  have h32a : a % 2 ^ 32 = a := Nat.mod_eq_of_lt (by omega)
  have h32b : b % 2 ^ 32 = b := Nat.mod_eq_of_lt (by omega)
  rw [h32a, h32b]
  rcases le_or_lt b a with h | h
  · have e1 : (a + (2 ^ 32 - b)) % 2 ^ 32 = a - b := by omega
    rw [e1, if_pos (by omega)]
    omega
  · have e2 : (a + (2 ^ 32 - b)) % 2 ^ 32 = a + (2 ^ 32 - b) := Nat.mod_eq_of_lt (by omega)
    rw [e2, if_neg (by omega)]
    omega

/-- For small identifiers `cacheLE` is the ordinary order on identifiers. -/
theorem cacheLE_small (a b : Cache) (ha : a.cf.can_id < 2 ^ 31) (hb : b.cf.can_id < 2 ^ 31) :
    cacheLE a b = true ↔ a.cf.can_id ≤ b.cf.can_id := by
  unfold cacheLE cmpcache
  rw [cmpId_small _ _ ha hb, decide_eq_true_eq]
  omega

/-- Membership in a sorted insertion. -/
theorem mem_insertSorted (x a : Cache) (l : List Cache) :
    a ∈ insertSorted x l ↔ a = x ∨ a ∈ l := by
  induction l with
  | nil => simp [insertSorted]
  | cons y l ih =>
    unfold insertSorted
    by_cases h : cacheLE x y
    · rw [if_pos h]
      simp [List.mem_cons]
    · rw [if_neg h]
      simp [List.mem_cons, ih]
      tauto

/-- Sorted insertion permutes a cons. -/
theorem insertSorted_perm (x : Cache) (l : List Cache) :
    List.Perm (insertSorted x l) (x :: l) := by
  induction l with
  | nil => exact List.Perm.refl _
  | cons y l ih =>
    unfold insertSorted
    by_cases h : cacheLE x y
    · rw [if_pos h]
    · rw [if_neg h]
      exact (ih.cons y).trans (List.Perm.swap x y l)

/-- The `qsort` model permutes its input. -/
theorem qsortCache_perm (l : List Cache) : List.Perm (qsortCache l) l := by
  induction l with
  | nil => exact List.Perm.refl _
  | cons x l ih =>
    exact (insertSorted_perm x (qsortCache l)).trans (ih.cons x)

/-- Sorted insertion preserves the ascending-identifier invariant when all
identifiers are small. -/
theorem pairwise_le_insertSorted (x : Cache) (l : List Cache)
    (hx : x.cf.can_id < 2 ^ 31) (hl : ∀ e ∈ l, e.cf.can_id < 2 ^ 31)
    (h : l.Pairwise (fun a b => a.cf.can_id ≤ b.cf.can_id)) :
    (insertSorted x l).Pairwise (fun a b => a.cf.can_id ≤ b.cf.can_id) := by
  induction l with
  | nil => simp [insertSorted]
  | cons y l ih =>
    have hy : y.cf.can_id < 2 ^ 31 := hl y (by simp)
    rcases List.pairwise_cons.mp h with ⟨hyl, hl2⟩
    unfold insertSorted
    by_cases hc : cacheLE x y
    · rw [if_pos hc]
      have hxy : x.cf.can_id ≤ y.cf.can_id := (cacheLE_small x y hx hy).mp hc
      refine List.Pairwise.cons ?_ h
      intro b hb
      rcases List.mem_cons.mp hb with rfl | hbl
      · exact hxy
      · exact le_trans hxy (hyl b hbl)
    · rw [if_neg hc]
      have hyx : y.cf.can_id ≤ x.cf.can_id := by
        have hnot : ¬ x.cf.can_id ≤ y.cf.can_id :=
          fun hle => hc ((cacheLE_small x y hx hy).mpr hle)
        omega
      refine List.Pairwise.cons ?_ (ih (fun e he => hl e (by simp [he])) hl2)
      intro b hb
      rcases (mem_insertSorted x b l).mp hb with rfl | hbl
      · exact hyx
      · exact hyl b hbl

/-- The `qsort` model sorts small-identifier caches by identifier. -/
theorem pairwise_le_qsortCache (l : List Cache) (hl : ∀ e ∈ l, e.cf.can_id < 2 ^ 31) :
    (qsortCache l).Pairwise (fun a b => a.cf.can_id ≤ b.cf.can_id) := by
  induction l with
  | nil => simp [qsortCache]
  | cons x l ih =>
    refine pairwise_le_insertSorted x (qsortCache l) (hl x (by simp)) ?_
      (ih (fun e he => hl e (by simp [he])))
    intro e he
    exact hl e (by simp [(qsortCache_perm l).mem_iff.mp he])

/-- Identifiers are monotone along a strictly sorted cache. -/
theorem sorted_getD_mono (l : List Cache)
    (hsort : l.Pairwise (fun a b => a.cf.can_id < b.cf.can_id))
    {i j : Nat} (hij : i ≤ j) (hj : j < l.length) :
    (l.getD i default).cf.can_id ≤ (l.getD j default).cf.can_id := by
  rcases Nat.eq_or_lt_of_le hij with rfl | hlt
  · exact le_refl _
  · have hi : i < l.length := by omega
    rw [getD_eq_getElem_of_lt _ _ _ hi, getD_eq_getElem_of_lt _ _ _ hj]
    exact le_of_lt ((List.pairwise_iff_getElem.mp hsort) i j hi hj hlt)

/-- A successful probe of the search loop lies within the probed range. -/
theorem bsearchGo_some_bounds (key : Nat) (l : List Cache) :
    ∀ (fuel lo hi j : Nat), bsearchGo key l fuel lo hi = some j → lo ≤ j ∧ j < hi := by
  intro fuel
  induction fuel with
  | zero => intro lo hi j h; simp [bsearchGo] at h
  | succ f ih =>
    intro lo hi j h
    simp only [bsearchGo] at h
    by_cases hlh : lo < hi
    · rw [if_pos hlh] at h
      by_cases hc1 : cmpId key (l.getD ((lo + hi) / 2) default).cf.can_id < 0
      · rw [if_pos hc1] at h
        have := ih _ _ _ h
        omega
      · rw [if_neg hc1] at h
        by_cases hc2 : 0 < cmpId key (l.getD ((lo + hi) / 2) default).cf.can_id
        · rw [if_pos hc2] at h
          have := ih _ _ _ h
          omega
        · rw [if_neg hc2] at h
          have : (lo + hi) / 2 = j := by
            simpa using h
          omega
    · rw [if_neg hlh] at h
      simp at h

/-- A successful search returns an index holding the searched identifier
(when all identifiers, and the key, are small). -/
theorem bsearchGo_some_id (key : Nat) (l : List Cache)
    (hl : ∀ e ∈ l, e.cf.can_id < 2 ^ 31) (hk : key < 2 ^ 31) :
    ∀ (fuel lo hi j : Nat), hi ≤ l.length → bsearchGo key l fuel lo hi = some j →
      (l.getD j default).cf.can_id = key := by
  intro fuel
  induction fuel with
  | zero => intro lo hi j _ h; simp [bsearchGo] at h
  | succ f ih =>
    intro lo hi j hhil h
    simp only [bsearchGo] at h
    by_cases hlh : lo < hi
    · rw [if_pos hlh] at h
      by_cases hc1 : cmpId key (l.getD ((lo + hi) / 2) default).cf.can_id < 0
      · rw [if_pos hc1] at h
        exact ih _ _ _ (by omega) h
      · rw [if_neg hc1] at h
        by_cases hc2 : 0 < cmpId key (l.getD ((lo + hi) / 2) default).cf.can_id
        · rw [if_pos hc2] at h
          exact ih _ _ _ hhil h
        · rw [if_neg hc2] at h
          have hj : (lo + hi) / 2 = j := by simpa using h
          have hmidlen : (lo + hi) / 2 < l.length := by omega
          have hsmallmid : (l.getD ((lo + hi) / 2) default).cf.can_id < 2 ^ 31 := by
            rw [getD_eq_getElem_of_lt _ _ _ hmidlen]
            exact hl _ (List.getElem_mem hmidlen)
          have hzero : cmpId key (l.getD ((lo + hi) / 2) default).cf.can_id = 0 := by omega
          rw [cmpId_small _ _ hk hsmallmid] at hzero
          rw [← hj]
          omega
    · rw [if_neg hlh] at h
      simp at h

/-- Completeness of the search loop on a sorted small-identifier cache:
if the identifier occurs in the probed range and the fuel covers the range,
the search succeeds. -/
theorem bsearchGo_isSome_of_found (key : Nat) (l : List Cache)
    (hl : ∀ e ∈ l, e.cf.can_id < 2 ^ 31) (hk : key < 2 ^ 31)
    (hsort : l.Pairwise (fun a b => a.cf.can_id < b.cf.can_id)) :
    ∀ (fuel lo hi i : Nat), i < l.length → (l.getD i default).cf.can_id = key →
      lo ≤ i → i < hi → hi ≤ l.length → hi - lo ≤ fuel →
      (bsearchGo key l fuel lo hi).isSome = true := by
  intro fuel
  induction fuel with
  | zero => intro lo hi i _ _ hlo hhi _ hfuel; omega
  | succ f ih =>
    intro lo hi i hil hkey hlo hhi hhil hfuel
    have hlh : lo < hi := by omega
    simp only [bsearchGo]
    rw [if_pos hlh]
    have hmidlt : (lo + hi) / 2 < hi := by omega
    have hmidge : lo ≤ (lo + hi) / 2 := by omega
    have hmidlen : (lo + hi) / 2 < l.length := by omega
    have hsmallmid : (l.getD ((lo + hi) / 2) default).cf.can_id < 2 ^ 31 := by
      rw [getD_eq_getElem_of_lt _ _ _ hmidlen]
      exact hl _ (List.getElem_mem hmidlen)
    by_cases hc1 : cmpId key (l.getD ((lo + hi) / 2) default).cf.can_id < 0
    · rw [if_pos hc1]
      have hklt : key < (l.getD ((lo + hi) / 2) default).cf.can_id := by
        rw [cmpId_small _ _ hk hsmallmid] at hc1
        omega
      have himid : i < (lo + hi) / 2 := by
        by_contra hge
        push_neg at hge
        have hmono := sorted_getD_mono l hsort hge hil
        omega
      exact ih lo ((lo + hi) / 2) i hil hkey hlo himid (by omega) (by omega)
    · rw [if_neg hc1]
      by_cases hc2 : 0 < cmpId key (l.getD ((lo + hi) / 2) default).cf.can_id
      · rw [if_pos hc2]
        have hkgt : (l.getD ((lo + hi) / 2) default).cf.can_id < key := by
          rw [cmpId_small _ _ hk hsmallmid] at hc2
          omega
        have himid : (lo + hi) / 2 < i := by
          by_contra hge
          push_neg at hge
          have hmono := sorted_getD_mono l hsort hge hmidlen
          omega
        exact ih ((lo + hi) / 2 + 1) hi i hil hkey (by omega) hhi hhil (by omega)
      · rw [if_neg hc2]
        simp

/-- On a sorted small-identifier cache, `bsearch` finds a present
identifier: it returns an in-range index holding that identifier. -/
theorem bsearchIdx_spec_found (key : Nat) (l : List Cache)
    (hl : ∀ e ∈ l, e.cf.can_id < 2 ^ 31) (hk : key < 2 ^ 31)
    (hsort : l.Pairwise (fun a b => a.cf.can_id < b.cf.can_id))
    (e : Cache) (he : e ∈ l) (hid : e.cf.can_id = key) :
    ∃ j, bsearchIdx key l = some j ∧ j < l.length ∧ (l.getD j default).cf.can_id = key := by
  obtain ⟨i, hilen, hie⟩ := List.mem_iff_getElem.mp he
  have hgd : (l.getD i default).cf.can_id = key := by
    rw [getD_eq_getElem_of_lt _ _ _ hilen, hie, hid]
  have hsome := bsearchGo_isSome_of_found key l hl hk hsort (l.length + 1) 0 l.length i
    hilen hgd (Nat.zero_le _) hilen (le_refl _) (by omega)
  obtain ⟨j, hj⟩ := Option.isSome_iff_exists.mp hsome
  have hb := bsearchGo_some_bounds key l _ _ _ _ hj
  have hidj := bsearchGo_some_id key l hl hk _ _ _ _ (le_refl _) hj
  exact ⟨j, hj, by omega, hidj⟩

/-- When `bsearch` misses, no cache entry holds the identifier (sorted
small-identifier cache). -/
theorem bsearchIdx_none_not_mem (key : Nat) (l : List Cache)
    (hl : ∀ e ∈ l, e.cf.can_id < 2 ^ 31) (hk : key < 2 ^ 31)
    (hsort : l.Pairwise (fun a b => a.cf.can_id < b.cf.can_id))
    (hnone : bsearchIdx key l = none) :
    ∀ e ∈ l, e.cf.can_id ≠ key := by
  intro e he hid
  obtain ⟨j, hj, _, _⟩ := bsearchIdx_spec_found key l hl hk hsort e he hid
  rw [hnone] at hj
  cases hj

/-- C1 counterexample: in the cache built from `framesDup` (maxperiod 2),
an entry for identifier 0x100 is already present (last seen at t = 3), yet
integrating a second 0x100 frame at t = 4 does not set any entry's period
to the gap 1 (which is ≤ maxperiod): the overflowing identifier comparison
makes `bsearch` miss the present entry, so a duplicate is inserted with an
unknown period and the present entry keeps `lastrx = 3`, `period = NAN`. -/
theorem integrate_misses_present_entry :
    ((integrateAll 2 (framesDup.take 3)).any (fun e => e.cf.can_id == 0x100)) = true ∧
      ((integrateAll 2 framesDup).all (fun e => decide (e.period ≠ some 1))) = true ∧
      ((integrateAll 2 framesDup).any
        (fun e => e.cf.can_id == 0x100 && decide (e.lastrx = 3))) = true := by
  with_unfolding_all decide

/-- C3 counterexample: after the four `integrate` calls of `framesDup`
(a mix of standard, extended and RTR-flagged identifiers) the cache holds
two entries with identifier 0x100. -/
theorem integrate_creates_duplicate_identifier :
    ¬ ((integrateAll 2 framesDup).map (fun e => e.cf.can_id)).Nodup := by
  with_unfolding_all decide

/-- C4 counterexample: after integrating a standard frame (0x100) and an
extended RTR frame (0xC0000000), the snapshot handed to the renderer lists
the identifiers as [0xC0000000, 0x100] — not ascending, because the
comparator's `int` difference overflows for this pair. -/
theorem snapshot_not_ascending :
    ¬ ((((runLoop ⟨2, 10⟩ ⟨[], 0⟩ framesMix).2.getD 1 []).map
      (fun e => e.cf.can_id)).Pairwise (· < ·)) := by with_unfolding_all decide

/-- C10: rendering and sweeping happen only while processing a received
frame — an empty trace leaves the state untouched and renders nothing —
and a frame triggers them iff at least 0.25 s elapsed since `last_update`;
when gated, the state change is the `integrate` call alone (no eviction)
and `last_update` is unchanged. -/
theorem render_gated_by_interval (cfg : Config) (s : LoopState) (now : ℚ) (cf : CanFrame) :
    runLoop cfg s [] = (s, []) ∧
      ((stepFrame cfg s now cf).2 = none ↔ now - s.last_update < 1 / 4) ∧
      (now - s.last_update < 1 / 4 →
        (stepFrame cfg s now cf).1.cache = integrate cfg.maxperiod s.cache cf now ∧
          (stepFrame cfg s now cf).1.last_update = s.last_update) := by
  refine ⟨rfl, ?_, ?_⟩
  · unfold stepFrame
    by_cases h : now - s.last_update < 1 / 4
    · rw [if_pos h]
      exact ⟨fun _ => h, fun _ => rfl⟩
    · rw [if_neg h]
      exact ⟨fun hx => absurd hx (Option.some_ne_none _), fun hc => absurd hc h⟩
  · intro h
    unfold stepFrame
    rw [if_pos h]
    exact ⟨rfl, rfl⟩

/-- Witness for `render_gated_by_interval`: a frame arriving 0.125 s after
the last render updates the cache by integration only. -/
theorem render_gated_by_interval_witness :
    (stepFrame ⟨2, 10⟩ ⟨[], 0⟩ (1 / 8) frameStd100).1.cache
        = integrate 2 [] frameStd100 (1 / 8) ∧
      (stepFrame ⟨2, 10⟩ ⟨[], 0⟩ (1 / 8) frameStd100).1.last_update = 0 :=
  (render_gated_by_interval ⟨2, 10⟩ ⟨[], 0⟩ (1 / 8) frameStd100).2.2 (by norm_num)

/-- Replacing an entry by one with the same identifier leaves the
identifier column unchanged. -/
theorem map_canId_set (l : List Cache) (upd : Cache) :
    ∀ (i : Nat), i < l.length → upd.cf.can_id = (l.getD i default).cf.can_id →
      (l.set i upd).map (fun e => e.cf.can_id) = l.map (fun e => e.cf.can_id) := by
  induction l with
  | nil => intro i hi _; simp at hi
  | cons y l ih =>
    intro i hi hid
    cases i with
    | zero =>
      simp only [List.getD_cons_zero] at hid
      simp only [List.set_cons_zero, List.map_cons, hid]
    | succ i =>
      simp only [List.set_cons_succ, List.map_cons]
      rw [ih i (by simpa using hi) (by simpa using hid)]

/-- A strictly sorted cache has no duplicate identifiers. -/
theorem nodup_ids_of_pairwise (l : List Cache)
    (hsort : l.Pairwise (fun a b => a.cf.can_id < b.cf.can_id)) :
    (l.map (fun x => x.cf.can_id)).Nodup :=
  List.pairwise_map.mpr (hsort.imp (fun h => Nat.ne_of_lt h))

/-- Replacing an entry by one with the same identifier preserves the cache
invariant. -/
theorem wf_set_same_id (l : List Cache) (i : Nat) (upd : Cache)
    (hwf : wfCache l) (hi : i < l.length)
    (hid : upd.cf.can_id = (l.getD i default).cf.can_id) :
    wfCache (l.set i upd) := by
  obtain ⟨hsort, hsmall⟩ := hwf
  constructor
  · refine List.pairwise_map.mp ?_
    rw [map_canId_set l upd i hi hid]
    exact List.pairwise_map.mpr hsort
  · intro e he
    rcases List.mem_or_eq_of_mem_set he with hmem | rfl
    · exact hsmall e hmem
    · rw [hid, getD_eq_getElem_of_lt _ _ _ hi]
      exact hsmall _ (List.getElem_mem hi)

/-- `integrate` preserves the cache invariant for small identifiers. -/
theorem wf_integrate (mp now : ℚ) (cache : List Cache) (cf : CanFrame)
    (hwf : wfCache cache) (hk : cf.can_id < 2 ^ 31) :
    wfCache (integrate mp cache cf now) := by
  obtain ⟨hsort, hsmall⟩ := hwf
  unfold integrate
  cases hb : bsearchIdx cf.can_id cache with
  | some i =>
    have hb2 : bsearchGo cf.can_id cache (cache.length + 1) 0 cache.length = some i := hb
    have hbounds := bsearchGo_some_bounds cf.can_id cache _ _ _ _ hb2
    have hilen : i < cache.length := by omega
    have hidi : (cache.getD i default).cf.can_id = cf.can_id :=
      bsearchGo_some_id cf.can_id cache hsmall hk _ _ _ _ (le_refl _) hb2
    exact wf_set_same_id cache i _ ⟨hsort, hsmall⟩ hilen hidi.symm
  | none =>
    have hnotmem := bsearchIdx_none_not_mem cf.can_id cache hsmall hk hsort hb
    set newE : Cache := { cf := cf, flags := F_DIRTY, lastrx := now, period := none } with hN
    have hsmall2 : ∀ e ∈ cache ++ [newE], e.cf.can_id < 2 ^ 31 := by
      intro e he
      rcases List.mem_append.mp he with h1 | h1
      · exact hsmall e h1
      · simp at h1
        subst h1
        exact hk
    constructor
    · have hle := pairwise_le_qsortCache (cache ++ [newE]) hsmall2
      have hndsrc : ((cache ++ [newE]).map (fun x => x.cf.can_id)).Nodup := by
        rw [List.map_append, List.nodup_append]
        refine ⟨nodup_ids_of_pairwise cache hsort, by simp, ?_⟩
        intro a ha hb3
        simp [hN] at hb3
        subst hb3
        obtain ⟨e, he, hei⟩ := List.mem_map.mp ha
        exact hnotmem e he hei
      have hnd : ((qsortCache (cache ++ [newE])).map (fun x => x.cf.can_id)).Nodup :=
        (List.Perm.nodup_iff ((qsortCache_perm _).map _)).mpr hndsrc
      have hne := List.pairwise_map.mp hnd
      exact (hle.and hne).imp (fun h => lt_of_le_of_ne h.1 h.2)
    · intro e he
      exact hsmall2 e ((qsortCache_perm _).mem_iff.mp he)

/-- On a cache without duplicate identifiers, `find?` locates a member by
its identifier. -/
theorem find?_eq_of_mem_of_nodup (l : List Cache) (key : Nat) (e : Cache)
    (he : e ∈ l) (hid : e.cf.can_id = key)
    (hnd : (l.map (fun x => x.cf.can_id)).Nodup) :
    l.find? (fun x => x.cf.can_id == key) = some e := by
  induction l with
  | nil => simp at he
  | cons y l ih =>
    rw [List.map_cons, List.nodup_cons] at hnd
    obtain ⟨hy_not, hnd2⟩ := hnd
    by_cases hy : y.cf.can_id = key
    · rw [List.find?_cons_of_pos _ (by simp [hy])]
      rcases List.mem_cons.mp he with rfl | hel
      · rfl
      · exact absurd (hy ▸ (List.mem_map.mpr ⟨e, hel, hid⟩)) hy_not
    · rw [List.find?_cons_of_neg _ (by simp [hy])]
      rcases List.mem_cons.mp he with rfl | hel
      · exact absurd hid hy
      · exact ih hel hnd2

/-- C1 amended: on a well-formed cache (ascending identifiers, all below
`2 ^ 31` so the lookup comparator is exact), integrating a second frame
with the identifier of a present entry `e` keeps the cache size and leaves
the entry with the new payload, `lastrx = now`, and
`period = gap` when `gap = now - e.lastrx ≤ maxperiod`, unknown when
`gap > maxperiod`. -/
theorem integrate_updates_present_entry (mp now : ℚ) (cache : List Cache)
    (cf : CanFrame) (e : Cache) (hwf : wfCache cache) (hk : cf.can_id < 2 ^ 31)
    (he : e ∈ cache) (hid : e.cf.can_id = cf.can_id) :
    (integrate mp cache cf now).length = cache.length ∧
      ((integrate mp cache cf now).find? (fun x => x.cf.can_id == cf.can_id)).map
          (fun x => x.cf) = some cf ∧
      ((integrate mp cache cf now).find? (fun x => x.cf.can_id == cf.can_id)).map
          (fun x => x.lastrx) = some now ∧
      ((integrate mp cache cf now).find? (fun x => x.cf.can_id == cf.can_id)).map
          (fun x => x.period)
        = some (if now - e.lastrx ≤ mp then some (now - e.lastrx) else none) := by
  obtain ⟨hsort, hsmall⟩ := hwf
  have hnd := nodup_ids_of_pairwise cache hsort
  obtain ⟨i, hbi, hilen, hidi⟩ :=
    bsearchIdx_spec_found cf.can_id cache hsmall hk hsort e he hid
  -- the entry found at index i is e itself
  obtain ⟨k, hklen, hke⟩ := List.mem_iff_getElem.mp he
  have hik : i = k := by
    by_contra hne
    have hpair := List.pairwise_iff_getElem.mp hnd
    have hidk : cache[k].cf.can_id = cf.can_id := by rw [hke, hid]
    have hidiel : cache[i].cf.can_id = cf.can_id := by
      rw [← getD_eq_getElem_of_lt _ _ default hilen]
      exact hidi
    rcases Nat.lt_or_ge i k with hlt | hge
    · have hneq := hpair i k (by simpa using hilen) (by simpa using hklen) hlt
      rw [List.getElem_map, List.getElem_map, hidiel, hidk] at hneq
      exact hneq rfl
    · have hlt : k < i := by omega
      have hneq := hpair k i (by simpa using hklen) (by simpa using hilen) hlt
      rw [List.getElem_map, List.getElem_map, hidiel, hidk] at hneq
      exact hneq rfl
  subst hik
  have hgete : cache.getD i default = e := by
    rw [getD_eq_getElem_of_lt _ _ _ hilen]
    exact hke
  -- reduce integrate to the set on index i
  unfold integrate
  rw [hbi]
  simp only [hgete]
  refine ⟨by simp, ?_⟩
  -- locate the updated entry with find?
  have hlen2 : i < (cache.set i
      { cf := cf
        flags := if (decide (e.cf.can_id ≠ cf.can_id) || decide (e.cf.can_dlc ≠ cf.can_dlc)
            || decide (e.cf.data.take cf.can_dlc ≠ cf.data.take cf.can_dlc) : Bool)
          then e.flags ||| F_DIRTY else e.flags
        lastrx := now
        period := if mp < now - e.lastrx then none else some (now - e.lastrx) }).length := by
    simpa using hilen
  have hfind := find?_eq_of_mem_of_nodup (cache.set i _) cf.can_id _
    ((List.getElem_set_self hlen2) ▸ List.getElem_mem hlen2) rfl
    (by
      rw [map_canId_set cache _ i hilen hidi.symm]
      exact hnd)
  rw [hfind]
  refine ⟨rfl, rfl, ?_⟩
  rcases le_or_lt (now - e.lastrx) mp with hle | hlt
  · rw [if_pos hle, if_neg (not_lt.mpr hle)]
    rfl
  · rw [if_neg (not_le.mpr hlt), if_pos hlt]
    rfl

/-- Witness for `integrate_updates_present_entry`: updating the single
entry for 0x100 (last seen at t = 1) at t = 2 with maxperiod 2 yields
`period = 1` and `lastrx = 2`. -/
theorem integrate_updates_present_entry_witness :
    (integrate 2 cacheOne frameUpd 2).length = cacheOne.length ∧
      ((integrate 2 cacheOne frameUpd 2).find? (fun x => x.cf.can_id == frameUpd.can_id)).map
          (fun x => x.cf) = some frameUpd ∧
      ((integrate 2 cacheOne frameUpd 2).find? (fun x => x.cf.can_id == frameUpd.can_id)).map
          (fun x => x.lastrx) = some 2 ∧
      ((integrate 2 cacheOne frameUpd 2).find? (fun x => x.cf.can_id == frameUpd.can_id)).map
          (fun x => x.period)
        = some (if (2 : ℚ) - (1 : ℚ) ≤ 2 then some ((2 : ℚ) - (1 : ℚ)) else none) :=
  integrate_updates_present_entry 2 2 cacheOne frameUpd
    { cf := frameStd100, flags := 1, lastrx := 1, period := none }
    (by decide) (by decide) (by decide) (by decide)

/-- `integrate` sequences preserve the cache invariant. -/
theorem wf_foldl_integrate (mp : ℚ) (frames : List (ℚ × CanFrame)) :
    ∀ (cache : List Cache), wfCache cache → (∀ p ∈ frames, p.2.can_id < 2 ^ 31) →
      wfCache (frames.foldl (fun c p => integrate mp c p.2 p.1) cache) := by
  induction frames with
  | nil => intro cache hwf _; exact hwf
  | cons p frames ih =>
    intro cache hwf hsm
    exact ih _ (wf_integrate mp p.1 cache p.2 hwf (hsm p (by simp)))
      (fun q hq => hsm q (by simp [hq]))

/-- C3 amended: after any sequence of `integrate` calls whose identifiers
are all below `2 ^ 31` (standard and RTR-flagged identifiers, no EFF flag
bit), no two cache entries share an identifier. -/
theorem integrate_no_duplicate_identifiers (mp : ℚ) (frames : List (ℚ × CanFrame))
    (h : ∀ p ∈ frames, p.2.can_id < 2 ^ 31) :
    ((integrateAll mp frames).map (fun e => e.cf.can_id)).Nodup := by
  have hwf := wf_foldl_integrate mp frames [] ⟨List.Pairwise.nil, by simp⟩ h
  exact nodup_ids_of_pairwise _ hwf.1

/-- Witness for `integrate_no_duplicate_identifiers`: a trace of standard
identifiers with a repeat yields distinct identifiers. -/
theorem integrate_no_duplicate_identifiers_witness :
    ((integrateAll 2 framesSmall).map (fun e => e.cf.can_id)).Nodup :=
  integrate_no_duplicate_identifiers 2 framesSmall (by decide)

/-- The sweep preserves the cache invariant. -/
theorem wf_sweep (now dt : ℚ) (l : List Cache) (hwf : wfCache l) :
    wfCache (sweep now dt l) := by
  obtain ⟨hsort, hsmall⟩ := hwf
  rw [sweep_eq_filter_map]
  constructor
  · refine List.pairwise_map.mpr ?_
    exact List.Pairwise.sublist (List.filter_sublist _) hsort
  · intro e he
    obtain ⟨x, hx, rfl⟩ := List.mem_map.mp he
    exact hsmall x (List.mem_of_mem_filter hx)

/-- The per-row flag masking after a render preserves the invariant. -/
theorem wf_map_renderFlags (l : List Cache) (hwf : wfCache l) :
    wfCache (l.map renderFlags) := by
  obtain ⟨hsort, hsmall⟩ := hwf
  constructor
  · exact List.pairwise_map.mpr hsort
  · intro e he
    obtain ⟨x, hx, rfl⟩ := List.mem_map.mp he
    exact hsmall x hx

/-- Along any run of the main loop from a well-formed state over
small-identifier frames, the state stays well formed and every snapshot
handed to the renderer is strictly ascending by identifier. -/
theorem runLoop_wf_and_sorted (cfg : Config) (frames : List (ℚ × CanFrame)) :
    ∀ (s : LoopState), wfCache s.cache → (∀ p ∈ frames, p.2.can_id < 2 ^ 31) →
      wfCache (runLoop cfg s frames).1.cache ∧
        ∀ snap ∈ (runLoop cfg s frames).2,
          ((snap.map (fun e => e.cf.can_id)).Pairwise (· < ·)) := by
  induction frames with
  | nil => intro s hwf _; exact ⟨hwf, by simp [runLoop]⟩
  | cons p frames ih =>
    obtain ⟨t, cf⟩ := p
    intro s hwf hsm
    have hkey : cf.can_id < 2 ^ 31 := hsm (t, cf) (by simp)
    have hwf1 : wfCache (integrate cfg.maxperiod s.cache cf t) :=
      wf_integrate _ _ _ _ hwf hkey
    have hsm2 : ∀ q ∈ frames, q.2.can_id < 2 ^ 31 := fun q hq => hsm q (by simp [hq])
    simp only [runLoop]
    by_cases hlt : t - s.last_update < 1 / 4
    · have hstep : stepFrame cfg s t cf =
          ({ cache := integrate cfg.maxperiod s.cache cf t, last_update := s.last_update },
            none) := by
        unfold stepFrame
        rw [if_pos hlt]
      rw [hstep]
      exact ih _ hwf1 hsm2
    · have hstep : stepFrame cfg s t cf =
          ({ cache := (sweep t cfg.deadtime (integrate cfg.maxperiod s.cache cf t)).map
                renderFlags
             last_update := t },
            some (sweep t cfg.deadtime (integrate cfg.maxperiod s.cache cf t))) := by
        unfold stepFrame
        rw [if_neg hlt]
      rw [hstep]
      have hwf2 : wfCache (sweep t cfg.deadtime (integrate cfg.maxperiod s.cache cf t)) :=
        wf_sweep _ _ _ hwf1
      obtain ⟨ha, hb⟩ := ih { cache := (sweep t cfg.deadtime
        (integrate cfg.maxperiod s.cache cf t)).map renderFlags, last_update := t }
        (wf_map_renderFlags _ hwf2) hsm2
      refine ⟨ha, ?_⟩
      intro snap hsnap
      rcases List.mem_cons.mp hsnap with rfl | hmem
      · exact List.pairwise_map.mpr hwf2.1
      · exact hb snap hmem

/-- C4 amended: starting from the empty cache, over any trace whose
identifiers are all below `2 ^ 31` (no EFF flag bit), every snapshot handed
to the renderer lists entries in strictly ascending identifier order. -/
theorem snapshots_ascending (cfg : Config) (frames : List (ℚ × CanFrame))
    (h : ∀ p ∈ frames, p.2.can_id < 2 ^ 31) :
    ∀ snap ∈ (runLoop cfg ⟨[], 0⟩ frames).2,
      ((snap.map (fun e => e.cf.can_id)).Pairwise (· < ·)) :=
  (runLoop_wf_and_sorted cfg frames ⟨[], 0⟩ ⟨List.Pairwise.nil, by simp⟩ h).2

/-- Witness for `snapshots_ascending`: the snapshot of the one-frame trace
is ascending. -/
theorem snapshots_ascending_witness :
    ((snapOne.map (fun e => e.cf.can_id)).Pairwise (· < ·)) :=
  snapshots_ascending ⟨2, 10⟩ framesOne (by decide) snapOne
    (by with_unfolding_all decide)

end Canqv
